import Mathlib

/-!
Shallow embedding of the pybranchback snapshot and object engine
(src/pybranchback/repository.py, utils.py, bindifflib.py).

Modeling conventions.
Strings and byte payloads are both modeled as lists of byte values
(`List Nat`): every payload the engine manipulates on the verified
paths is ASCII, where Python `str` and `bytes` coincide codepoint for
codepoint, and `_byte_convert` is the identity on this representation.
Working-tree relative paths (POSIX-joined strings in the source, for
example the keys of `objhashcache`) are modeled as lists of path
components; file names contain no slash, so joined path strings are in
bijection with component lists and only equality of keys is ever used.
SHA-1 (`_hash_diget`) and the external `bsdiff4` library are modeled
as parameters collected in a `Prims` record; `bsdiff4` enters theorems
only through its documented round-trip contract.
An object file on disk is modeled by `ObjData`: `raw b` is a file
holding literal bytes `b`, and `env origin patch` is a file holding
`pickle.dumps((origin, patch))`.  The source discriminates these two
cases by comparing the SHA-1 of the file bytes against the digest
encoded in the file path; the embedding assumes a pickled envelope
never hashes to its own path digest, which is the same assumption the
source relies on.
-/

namespace PBB

/-- Byte strings (Python `bytes` and ASCII `str`). -/
abbrev Bytes := List Nat

/-- Working-tree relative paths as component lists. -/
abbrev Path := List Bytes

/-- Association-list lookup, first match wins (models a dict or a
directory of files keyed by name). -/
def lookupA {α β : Type} [DecidableEq α] : List (α × β) → α → Option β
  | [], _ => none
  | (k, v) :: rest, key => if k = key then some v else lookupA rest key

/-- Association-list update: overwrite in place if the key is present,
append otherwise (models writing a dict entry or overwriting a file). -/
def insertA {α β : Type} [DecidableEq α] : List (α × β) → α → β → List (α × β)
  | [], key, v => [(key, v)]
  | (k, w) :: rest, key, v =>
      if k = key then (key, v) :: rest else (k, w) :: insertA rest key v

/-- Boolean list membership for byte strings. -/
def memB (x : Bytes) : List Bytes → Bool
  | [] => false
  | y :: ys => if y = x then true else memB x ys

/-- External primitives: `hash` models `_hash_diget` (SHA-1 hex digest
of a payload), `bsdiff`/`bspatch` model `bsdiff4.diff`/`bsdiff4.patch`
in the bsdiff4 argument convention (`bspatch src p` applies patch `p`
to `src`). -/
structure Prims where
  hash : Bytes → Bytes
  bsdiff : Bytes → Bytes → Bytes
  bspatch : Bytes → Bytes → Bytes

/-- bindifflib.diff(compress, reference): returns
bsdiff4.diff(compress, reference). -/
def bindiff (P : Prims) (compress reference : Bytes) : Bytes :=
  P.bsdiff compress reference

/-- bindifflib.patch(patch, reference): returns
bsdiff4.patch(reference, patch). -/
def binpatch (P : Prims) (patchBytes reference : Bytes) : Bytes :=
  P.bspatch reference patchBytes

/-- Content of one object file under `objects/`. -/
inductive ObjData where
  | raw (b : Bytes)
  | env (origin : Bytes) (patchBytes : Bytes)
  deriving DecidableEq

/-- One row of the snapshots table (id and timestamp omitted: the
engine never reads them back). -/
structure SnapRow where
  hash : Bytes
  branch : Bytes
  label : Bytes
  message : Bytes
  user : Bytes
  deriving DecidableEq

/-- The mutable repository state: object files keyed by digest, the
in-memory `objhashcache` dict, its pickled on-disk copy, the HEAD file
content, the branch ref files under `refs/heads` in listing order, and
the snapshots table rows in insertion order. -/
structure RepoState where
  store : List (Bytes × ObjData)
  cache : List (Path × Bytes)
  cacheDisk : List (Path × Bytes)
  headFile : Bytes
  branches : List (Bytes × Bytes)
  catalog : List SnapRow
  deriving DecidableEq

/-- The byte string "master". -/
def masterName : Bytes := [109, 97, 115, 116, 101, 114]

/-- The byte string ".pbb" (the repository directory name). -/
def pbbName : Bytes := [46, 112, 98, 98]

/-- State immediately after `create_repo`: HEAD holds "master", the
hash cache is empty in memory and on disk, no branch ref file exists,
the snapshots table is empty (the platform-specific hidden-attribute
call changes no modeled state). -/
def freshRepo : RepoState :=
  { store := [], cache := [], cacheDisk := [],
    headFile := masterName, branches := [], catalog := [] }

/-- Read failure inside `_read_object` (missing file, corrupt content,
or a delta chain that does not resolve). -/
inductive RErr where
  | readFail
  deriving DecidableEq

/-- `_read_object`: read the file at the digest path; if its bytes
hash to the digest return them, otherwise unpickle an
`(origin, patch)` envelope, recursively read the origin and apply
`bindifflib.patch(patch, origin_bytes)`.  The Python recursion is
unbounded; `fuel` bounds it here, `none` covers both a failed read and
fuel exhaustion. -/
def readObject (P : Prims) : Nat → List (Bytes × ObjData) → Bytes → Option Bytes
  | 0, _, _ => none
  | fuel + 1, store, dg =>
      match lookupA store dg with
      | none => none
      | some (.raw b) => if P.hash b = dg then some b else none
      | some (.env origin patchBytes) =>
          match readObject P fuel store origin with
          | none => none
          | some ref => some (binpatch P patchBytes ref)

/-- `_delta_compress(obj_path, obj_hash, obj_content)`: if the path is
not in `objhashcache`, return the uncompressed content to be written;
if the cached digest equals the new digest, return nothing to write;
otherwise read the old object and return the pickled envelope
`(obj_hash, bindifflib.diff(obj_content, old_bytes))`. -/
def deltaCompress (P : Prims) (fuel : Nat) (st : RepoState)
    (objPath : Path) (objHash : Bytes) (objContent : Bytes) :
    Except RErr (Option ObjData) :=
  match lookupA st.cache objPath with
  | none => .ok (some (.raw objContent))
  | some refHash =>
      if refHash = objHash then .ok none
      else
        match readObject P fuel st.store refHash with
        | none => .error .readFail
        | some bOld => .ok (some (.env objHash (bindiff P objContent bOld)))

/-- `_save_node(path, node_content)`: hash the content, run
`_delta_compress`, and if it returned content, write that content at
the path of the NEW digest and set `objhashcache[path]` to the new
digest.  (The source writes `final_content` at `obj_path`, the path
derived from the new digest, in every branch that writes.) -/
def saveNode (P : Prims) (fuel : Nat) (st : RepoState)
    (path : Path) (content : Bytes) : RepoState × Except RErr Bytes :=
  match deltaCompress P fuel st path (P.hash content) content with
  | .error e => (st, .error e)
  | .ok none => (st, .ok (P.hash content))
  | .ok (some data) =>
      ({ st with store := insertA st.store (P.hash content) data,
                 cache := insertA st.cache path (P.hash content) },
       .ok (P.hash content))

mutual
/-- Working tree: a directory node lists its subdirectories (in walk
order) and then its files with their byte contents. -/
inductive WTree where
  | node (dirs : WForest) (files : List (Bytes × Bytes))

/-- List of named subdirectories of a working-tree node. -/
inductive WForest where
  | nil
  | cons (name : Bytes) (t : WTree) (rest : WForest)
end

/-- The literal "tree". -/
def treeK : Bytes := [116, 114, 101, 101]

/-- The literal "blob". -/
def blobK : Bytes := [98, 108, 111, 98]

/-- One tree-node entry, `'{kind} {digest} {name}'`. -/
def entryLine (kind dg name : Bytes) : Bytes :=
  kind ++ 32 :: (dg ++ 32 :: name)

/-- `'\n'.join(entries)`. -/
def joinNL : List Bytes → Bytes
  | [] => []
  | [e] => e
  | e :: rest => e ++ 10 :: joinNL rest

/-- Tree-node payload: entries joined by newlines plus a trailing
newline. -/
def nodeContent (ents : List Bytes) : Bytes :=
  joinNL ents ++ [10]

/-- The file loop of `_create_tree_node`: for each file, save a blob
node at `posixjoin(directory, file)` and collect the entry line
`'blob {hash} {name}'`. -/
def snapFiles (P : Prims) (fuel : Nat) :
    List (Bytes × Bytes) → Path → RepoState →
    RepoState × Except RErr (List Bytes)
  | [], _, st => (st, .ok [])
  | (name, bytes) :: rest, dir, st =>
      match saveNode P fuel st (dir ++ [name]) bytes with
      | (st1, .error e) => (st1, .error e)
      | (st1, .ok dg) =>
          match snapFiles P fuel rest dir st1 with
          | (st2, .error e) => (st2, .error e)
          | (st2, .ok ents) => (st2, .ok (entryLine blobK dg name :: ents))

mutual
/-- `_create_tree_node(directory)`: recursively save tree nodes for
subdirectories (excluding `.pbb`), then blob nodes for files, then
save this node whose payload lists the entries, returning its digest. -/
def snapTree (P : Prims) (fuel : Nat) :
    WTree → Path → RepoState → RepoState × Except RErr Bytes
  | .node dirs files, dir, st =>
      match snapDirs P fuel dirs dir st with
      | (st1, .error e) => (st1, .error e)
      | (st1, .ok entsD) =>
          match snapFiles P fuel files dir st1 with
          | (st2, .error e) => (st2, .error e)
          | (st2, .ok entsF) =>
              saveNode P fuel st2 dir (nodeContent (entsD ++ entsF))

/-- The subdirectory loop of `_create_tree_node`, with the `.pbb`
blacklist applied to the listing. -/
def snapDirs (P : Prims) (fuel : Nat) :
    WForest → Path → RepoState → RepoState × Except RErr (List Bytes)
  | .nil, _, st => (st, .ok [])
  | .cons name t rest, dir, st =>
      if name = pbbName then snapDirs P fuel rest dir st
      else
        match snapTree P fuel t (dir ++ [name]) st with
        | (st1, .error e) => (st1, .error e)
        | (st1, .ok dg) =>
            match snapDirs P fuel rest dir st1 with
            | (st2, .error e) => (st2, .error e)
            | (st2, .ok ents) => (st2, .ok (entryLine treeK dg name :: ents))
end

/-- The file loop of `_get_tree_hash`: entry lines with blob digests,
writing nothing. -/
def hashFiles (P : Prims) : List (Bytes × Bytes) → List Bytes
  | [] => []
  | (name, bytes) :: rest => entryLine blobK (P.hash bytes) name :: hashFiles P rest

mutual
/-- `_get_tree_hash(directory)`: the digest a snapshot of this tree
would produce, computed without writing anything. -/
def hashTree (P : Prims) : WTree → Bytes
  | .node dirs files =>
      P.hash (nodeContent (hashDirs P dirs ++ hashFiles P files))

/-- The subdirectory loop of `_get_tree_hash`, with the `.pbb`
blacklist applied. -/
def hashDirs (P : Prims) : WForest → List Bytes
  | .nil => []
  | .cons name t rest =>
      if name = pbbName then hashDirs P rest
      else entryLine treeK (hashTree P t) name :: hashDirs P rest
end

/-- `current_branch()`: the stripped HEAD file content (the engine
writes HEAD without surrounding whitespace, so stripping is the
identity on every reachable state). -/
def currentBranch (st : RepoState) : Bytes :=
  st.headFile

/-- `list_branches()`: the names of the files under `refs/heads`. -/
def listBranchNames (st : RepoState) : List Bytes :=
  st.branches.map Prod.fst

/-- `_current_snapshot_hash()`: if the HEAD content is not a listed
branch name it is itself taken as a detached snapshot address,
otherwise the branch ref file is read. -/
def currentSnapshotHash (st : RepoState) : Option Bytes × Bool :=
  let branch := currentBranch st
  if memB branch (listBranchNames st) then
    (lookupA st.branches branch, false)
  else
    (some branch, true)

/-- `_update_branch_head(new_hash, branch)` with an explicit branch
name: overwrite that branch ref file. -/
def updateBranchHead (st : RepoState) (newHash : Bytes) (branch : Bytes) :
    RepoState :=
  { st with branches := insertA st.branches branch newHash }

/-- `_insert_snapshot(obj_hash, label, message, user)`: append a row
whose branch column is the current branch. -/
def insertSnapshot (st : RepoState) (objHash label message user : Bytes) :
    RepoState :=
  { st with catalog :=
      st.catalog ++ [{ hash := objHash, branch := currentBranch st,
                       label := label, message := message, user := user }] }

/-- Outcome of `snapshot`. -/
inductive SnapOutcome where
  | ok (dg : Bytes)
  | noChanges
  | detachedErr
  | readErr
  deriving DecidableEq

/-- `snapshot(label, message, user)`: build the tree (writing objects
and the in-memory cache as a side effect), compare the root digest
with the current snapshot hash, and on a change from an attached HEAD
persist the cache, advance the branch ref and append a catalog row.
`detachedErr` models the ValueError raised on a detached HEAD. -/
def snapshotOp (P : Prims) (fuel : Nat) (wt : WTree) (st : RepoState)
    (label message user : Bytes) : RepoState × SnapOutcome :=
  match snapTree P fuel wt [] st with
  | (st1, .error _) => (st1, .readErr)
  | (st1, .ok topHash) =>
      match currentSnapshotHash st1 with
      | (oldHash, detached) =>
          if oldHash = some topHash then (st1, .noChanges)
          else if detached then (st1, .detachedErr)
          else
            let st2 := { st1 with cacheDisk := st1.cache }
            let st3 := updateBranchHead st2 topHash (currentBranch st2)
            (insertSnapshot st3 topHash label message user, .ok topHash)

/-- ASCII lowercase of one byte, as Python `str.lower` acts on the
ASCII range (every digest and identifier here is ASCII). -/
def toLowerN (n : Nat) : Nat :=
  if 65 ≤ n ∧ n ≤ 90 then n + 32 else n

/-- Python `s.lower()` on ASCII byte strings. -/
def pyLower (s : Bytes) : Bytes :=
  s.map toLowerN

/-- Python `a.startswith(b)` (here: `b` starts `a`). -/
def startsB : Bytes → Bytes → Bool
  | _, [] => true
  | [], _ :: _ => false
  | a :: as, b :: bs => if a = b then startsB as bs else false

/-- utils.get_matches(match_string, iter_strings): the lowercased
strings whose lowercase form starts with the lowercased match
string. -/
def get_matches (m : Bytes) (xs : List Bytes) : List Bytes :=
  (xs.filter (fun x => startsB (pyLower x) (pyLower m))).map pyLower

/-- `_full_hash(partial)`: resolve a partial snapshot hash against the
catalog; zero or several matches raise InvalidHashException carrying
the match list, one match is returned. -/
def fullHash (st : RepoState) (q : Bytes) : Except (List Bytes) Bytes :=
  match get_matches q (st.catalog.map SnapRow.hash) with
  | [m] => .ok m
  | ms => .error ms

/-- `_check_dirty()` returns true when the source raises
DirtyDirectoryException.  The source raises when the working-tree
digest EQUALS the current snapshot hash (its `cur_hash == dir_hash`
test), exactly as written. -/
def checkDirty (P : Prims) (wt : WTree) (st : RepoState) : Bool :=
  (currentSnapshotHash st).1 = some (hashTree P wt)

/-- Failure of `create_branch`. -/
inductive CBErr where
  | invalid (results : List Bytes)
  | headNone
  deriving DecidableEq

/-- `create_branch(name, snapshot)`: resolve the target hash (from the
current snapshot when absent, else through `_full_hash`) and overwrite
the ref file.  `headNone` models the crash of writing a None hash. -/
def createBranch (st : RepoState) (name : Bytes)
    (snapshotId : Option Bytes) : RepoState × Except CBErr Unit :=
  match snapshotId with
  | none =>
      match (currentSnapshotHash st).1 with
      | some full => (updateBranchHead st full name, .ok ())
      | none => (st, .error .headNone)
  | some sid =>
      match fullHash st sid with
      | .error ms => (st, .error (.invalid ms))
      | .ok full => (updateBranchHead st full name, .ok ())

/-- `_match_branch(snapshot_hash)`: the first branch in listing order
whose ref file content equals the hash. -/
def matchBranch (st : RepoState) (snapshotHash : Bytes) : Option Bytes :=
  match st.branches.find? (fun nv => nv.2 = snapshotHash) with
  | some nv => some nv.1
  | none => none

/-- Outcome of `checkout` and `switch_branch`. -/
inductive CheckoutOutcome where
  | ok
  | invalidHash (results : List Bytes)
  | dirtyErr
  | branchNotFound
  | typeErr
  | attrErr
  deriving DecidableEq

/-- `switch_branch(name, force)`: validate the name, run the dirty
check unless forced, write HEAD, then call `_update_files` - which
dereferences the attribute `self.root` that the class never defines,
so the call raises AttributeError (`attrErr`) after HEAD was already
written. -/
def switchBranch (P : Prims) (wt : WTree) (st : RepoState)
    (name : Bytes) (force : Bool) : RepoState × CheckoutOutcome :=
  if ¬ memB name (listBranchNames st) then (st, .branchNotFound)
  else if ¬ force ∧ checkDirty P wt st then (st, .dirtyErr)
  else ({ st with headFile := name }, .attrErr)

/-- `checkout(checkout_hash, force, branch)`: resolve the full hash,
dirty-check unless forced, optionally create the new branch, then
either switch to the first branch matching the hash (note:
`switch_branch` is called WITHOUT the force flag) or set a detached
HEAD and call `self.update_files()` - an attribute that does not
exist, so the detached path raises AttributeError after writing
HEAD. -/
def checkout (P : Prims) (wt : WTree) (st : RepoState)
    (checkoutHash : Bytes) (force : Bool) (newBranch : Option Bytes) :
    RepoState × CheckoutOutcome :=
  match fullHash st checkoutHash with
  | .error ms => (st, .invalidHash ms)
  | .ok full =>
      if ¬ force ∧ checkDirty P wt st then (st, .dirtyErr)
      else
        match (match newBranch with
               | some nm => createBranch st nm (some full)
               | none => (st, .ok ())) with
        | (st1, .error (.invalid ms)) => (st1, .invalidHash ms)
        | (st1, .error .headNone) => (st1, .typeErr)
        | (st1, .ok ()) =>
            match matchBranch st1 full with
            | some b => switchBranch P wt st1 b false
            | none => ({ st1 with headFile := full }, .attrErr)

/-- Bytes Python `str.rstrip()` considers whitespace. -/
def isPySpace (n : Nat) : Bool :=
  n = 32 ∨ n = 9 ∨ n = 10 ∨ n = 13 ∨ n = 11 ∨ n = 12

/-- Python `s.rstrip()`: drop trailing whitespace. -/
def pyRstrip (s : Bytes) : Bytes :=
  (s.reverse.dropWhile isPySpace).reverse

/-- `_parse_tree_line(line)`: strip the line and slice fixed columns
`[:5]`, `[5:46]`, `[46:]`, stripping each. -/
def parseTreeLine (line : Bytes) : Bytes × Bytes × Bytes :=
  (pyRstrip ((pyRstrip line).take 5),
   pyRstrip (((pyRstrip line).drop 5).take 41),
   pyRstrip ((pyRstrip line).drop 46))

/-! Concrete instances used to evaluate the engine on the scenarios
from the specification.  `hashT` is an injective stand-in for the
SHA-1 hex digest (prepending the byte 35, `#`, which occurs in no file
name or branch name used below); `Ptoy.bsdiff a b = b` together with
`Ptoy.bspatch a p = p` satisfies the bsdiff4 round-trip contract. -/

/-- Injective stand-in for `_hash_diget`. -/
def hashT (b : Bytes) : Bytes := 35 :: b

/-- Concrete primitives for scenario evaluation. -/
def Ptoy : Prims :=
  { hash := hashT, bsdiff := fun _ b => b, bspatch := fun _ p => p }

/-- The byte string "a.txt". -/
def aName : Bytes := [97, 46, 116, 120, 116]

/-- The byte string "other". -/
def otherName : Bytes := [111, 116, 104, 101, 114]

/-- The byte string "newb". -/
def newbName : Bytes := [110, 101, 119, 98]

/-- File bytes "old". -/
def oldB : Bytes := [111, 108, 100]

/-- File bytes "new". -/
def newB : Bytes := [110, 101, 119]

/-- Working tree with the single file `a.txt` containing "old". -/
def wtOld : WTree := .node .nil [(aName, oldB)]

/-- Working tree with the single file `a.txt` containing "new". -/
def wtNew : WTree := .node .nil [(aName, newB)]

/-- The empty working tree. -/
def wtEmpty : WTree := .node .nil []

/-- Fresh repository after `create_branch("master")`, the reachable
state in which the first snapshot can succeed (on a fresh repository
HEAD says "master" but no ref file exists, so `create_branch` with no
snapshot argument writes the literal HEAD content "master" into
`refs/heads/master`). -/
def stM : RepoState := (createBranch freshRepo masterName none).1

/-- State after the first snapshot (file content "old"). -/
def stS1 : RepoState := (snapshotOp Ptoy 9 wtOld stM [] [] []).1

/-- State after the second snapshot (file content changed to "new"). -/
def stS2 : RepoState := (snapshotOp Ptoy 9 wtNew stS1 [] [] []).1

/-- Digest of the old blob. -/
def dOld : Bytes := hashT oldB

/-- Digest of the new blob. -/
def dNew : Bytes := hashT newB

/-- Root tree digest of the first snapshot. -/
def tRoot1 : Bytes := hashTree Ptoy wtOld

/-- Root tree digest of the second snapshot. -/
def tRoot2 : Bytes := hashTree Ptoy wtNew

/-- State after additionally creating branch "other" at the first
snapshot digest, so that two branches point at the same digest. -/
def stB : RepoState := (createBranch stS1 otherName (some tRoot1)).1

/-- Result of `checkout(tRoot1, force=True, branch="newb")` from `stB`
with the working tree modified. -/
def c9res : RepoState × CheckoutOutcome :=
  checkout Ptoy wtNew stB tRoot1 true (some newbName)

/-- Catalog used to exercise partial-hash resolution: two rows whose
hashes are "abc" and "abd". -/
def stW : RepoState :=
  { freshRepo with catalog :=
      [{ hash := [97, 98, 99], branch := masterName,
         label := [], message := [], user := [] },
       { hash := [97, 98, 100], branch := masterName,
         label := [], message := [], user := [] }] }

/-- Names of a forest in listing order. -/
def forestNames : WForest → List Bytes
  | .nil => []
  | .cons n _ rest => n :: forestNames rest

/-- All names distinct. -/
def nodupNames : List Bytes → Bool
  | [] => true
  | x :: xs => !(memB x xs) && nodupNames xs

mutual
/-- Filesystem well-formedness of a working tree: within every
directory the entry names are pairwise distinct (true of every real
directory listing). -/
def wfT : WTree → Bool
  | .node dirs files =>
      nodupNames (forestNames dirs ++ files.map Prod.fst) && wfD dirs

/-- `wfT` for every tree of a forest. -/
def wfD : WForest → Bool
  | .nil => true
  | .cons _ t rest => wfT t && wfD rest
end

/-- `p` lies at or below directory `dir`. -/
def under (dir p : Path) : Prop :=
  ∃ r, p = dir ++ r

/-- The two states agree on everything except the object store and the
in-memory hash cache (the only fields the tree walk writes). -/
def onlySC (st st1 : RepoState) : Prop :=
  st1.cacheDisk = st.cacheDisk ∧ st1.headFile = st.headFile ∧
  st1.branches = st.branches ∧ st1.catalog = st.catalog

/-- The cache knows the digest of every listed file of a node. -/
def cachedF (P : Prims) (c : List (Path × Bytes)) :
    List (Bytes × Bytes) → Path → Bool
  | [], _ => true
  | (n, b) :: rest, dir =>
      decide (lookupA c (dir ++ [n]) = some (P.hash b)) && cachedF P c rest dir

mutual
/-- The cache maps every path of the tree rooted at `dir` (tree nodes
and blobs, `.pbb` entries excluded) to its current digest. -/
def cachedT (P : Prims) (c : List (Path × Bytes)) : WTree → Path → Bool
  | .node dirs files, dir =>
      cachedD P c dirs dir && cachedF P c files dir &&
      decide (lookupA c dir = some (hashTree P (.node dirs files)))

/-- `cachedT` for every non-blacklisted tree of a forest. -/
def cachedD (P : Prims) (c : List (Path × Bytes)) : WForest → Path → Bool
  | .nil, _ => true
  | .cons n t rest, dir =>
      (if n = pbbName then true else cachedT P c t (dir ++ [n])) &&
      cachedD P c rest dir
end

/-! Basic facts about the association-list operations. -/

theorem lookupA_insertA_self {α β : Type} [DecidableEq α]
    (l : List (α × β)) (k : α) (v : β) :
    lookupA (insertA l k v) k = some v := by
  induction l with
  | nil => simp [insertA, lookupA]
  | cons kv rest ih =>
      by_cases h : kv.1 = k <;>
        simp [insertA, lookupA, h, ih]

theorem lookupA_insertA_ne {α β : Type} [DecidableEq α]
    {l : List (α × β)} {k q : α} (v : β) (h : q ≠ k) :
    lookupA (insertA l k v) q = lookupA l q := by
  have hkq : ¬ k = q := fun hh => h hh.symm
  induction l with
  | nil => simp [insertA, lookupA, hkq]
  | cons kv rest ih =>
      by_cases hk : kv.1 = k
      · simp [insertA, lookupA, hk, hkq]
      · by_cases hq : kv.1 = q <;> simp [insertA, lookupA, hk, hq, h, ih]

theorem memB_map_fst_insertA {β : Type} (l : List (Bytes × β)) (k : Bytes) (v : β) :
    memB k ((insertA l k v).map Prod.fst) = true := by
  induction l with
  | nil => simp [insertA, memB]
  | cons kv rest ih =>
      by_cases h : kv.1 = k <;> simp [insertA, memB, h, ih]

/-- Reading a digest whose object file is a delta envelope naming
itself as origin never terminates: the Python recursion
`_read_object(d)` calls `_read_object(d)` again, so no amount of fuel
yields a result. -/
theorem readObject_self_env (P : Prims) (s : List (Bytes × ObjData))
    (d p : Bytes) (h : lookupA s d = some (ObjData.env d p)) :
    ∀ fuel, readObject P fuel s d = none := by
  intro fuel
  induction fuel with
  | zero => rfl
  | succ n ih => simp [readObject, h, ih]

/-- Claim C3: for all byte sequences a and b, the bindifflib wrappers
satisfy patch(diff(a, b), a) = b, given the round-trip contract of the
underlying bsdiff4 library (an external dependency, modeled by that
contract). -/
theorem binDelta_roundTrip (P : Prims)
    (hlib : ∀ a b : Bytes, P.bspatch a (P.bsdiff a b) = b) :
    ∀ a b : Bytes, binpatch P (bindiff P a b) a = b := by
  intro a b
  simpa [binpatch, bindiff] using hlib a b

theorem binDelta_roundTrip_witness :
    (∀ a b : Bytes, Ptoy.bspatch a (Ptoy.bsdiff a b) = b) ∧
    binpatch Ptoy (bindiff Ptoy [1, 2] [3, 4, 5]) [1, 2] = [3, 4, 5] :=
  ⟨fun _ _ => rfl, binDelta_roundTrip Ptoy (fun _ _ => rfl) [1, 2] [3, 4, 5]⟩

/-- Claim C7: REFUTED as a property of the code.  On a freshly created
repository the first snapshot does not succeed: HEAD contains "master"
but no ref file `refs/heads/master` exists yet, so
`_current_snapshot_hash` classifies the state as detached and
`snapshot` raises the detached-HEAD ValueError; no catalog row is
appended and branch master is never written. -/
theorem freshSnapshot_detached_bug :
    (snapshotOp Ptoy 2 wtEmpty freshRepo [] [] []).2 = SnapOutcome.detachedErr ∧
    (snapshotOp Ptoy 2 wtEmpty freshRepo [] [] []).1.catalog = [] ∧
    lookupA (snapshotOp Ptoy 2 wtEmpty freshRepo [] [] []).1.branches
      masterName = none := by
  exact ⟨by decide, by decide, by decide⟩

/-- Claim C1: REFUTED as a property of the code.  After snapshotting
`a.txt` = "old" and then snapshotting `a.txt` = "new", `_save_node`
writes the delta envelope returned by `_delta_compress` at the path of
the NEW digest (its `obj_path` is derived from `digest`, the new
hash), with the new digest itself as the envelope origin: the new
bytes are never stored, the old object file stays fresh instead of
being overwritten, and reading the new digest loops forever.  Only the
PathCache update and the readability of the old digest agree with the
claim. -/
theorem deltaPolicy_bug :
    lookupA stS2.store dNew =
      some (ObjData.env dNew (bindiff Ptoy newB oldB)) ∧
    lookupA stS2.store dOld = some (ObjData.raw oldB) ∧
    lookupA stS2.cache [aName] = some dNew ∧
    readObject Ptoy 1 stS2.store dOld = some oldB ∧
    (∀ fuel, readObject Ptoy fuel stS2.store dNew = none) := by
  refine ⟨by decide, by decide, by decide, by decide,
    readObject_self_env Ptoy stS2.store dNew (bindiff Ptoy newB oldB)
      (by decide)⟩

/-- Claim C2: REFUTED as a property of the code.  After the two
snapshots of the C1 scenario, the second recorded snapshot root digest
names an object file that is a delta envelope whose origin is itself:
the chain is a one-step cycle, it terminates at no fresh object, and
`_read_object` on that digest never returns for any recursion
budget. -/
theorem chainInvariant_bug :
    stS2.catalog.map SnapRow.hash = [tRoot1, tRoot2] ∧
    lookupA stS2.store tRoot2 =
      some (ObjData.env tRoot2
        (bindiff Ptoy (nodeContent [entryLine blobK dNew aName])
          (nodeContent [entryLine blobK dOld aName]))) ∧
    (∀ fuel, readObject Ptoy fuel stS2.store tRoot2 = none) := by
  refine ⟨by decide, by decide,
    readObject_self_env Ptoy stS2.store tRoot2
      (bindiff Ptoy (nodeContent [entryLine blobK dNew aName])
        (nodeContent [entryLine blobK dOld aName])) (by decide)⟩

/-- Claim C9: REFUTED as a property of the code.  With branches master
and other both at the first snapshot digest, a forced checkout of that
digest with new branch "newb" does create `refs/heads/newb`, but
`_match_branch` returns the FIRST branch in listing order whose head
matches, so HEAD is attached to master, not to newb, and the operation
then dies in `_update_files` (AttributeError on the undefined
`self.root`), never returning successfully. -/
theorem checkoutNewBranch_bug :
    lookupA c9res.1.branches newbName = some tRoot1 ∧
    c9res.2 = CheckoutOutcome.attrErr ∧
    c9res.1.headFile = masterName ∧
    masterName ≠ newbName ∧
    lookupA stB.branches otherName = some tRoot1 := by
  exact ⟨by decide, by decide, by decide, by decide, by decide⟩

/-- Claim C4: REFUTED as a property of the code.  The comparison in
`_check_dirty` is inverted: it raises DirtyDirectoryException when the
working-tree digest EQUALS the current snapshot hash.  On the clean
tree (digest equal to the snapshot) checkout without force raises the
error; with force it still raises it, because `checkout` routes
through `switch_branch` without forwarding the force flag; and on a
genuinely changed tree no DirtyDirectory error is raised at all (the
call instead proceeds and dies on the undefined `_update_files`
attributes). -/
theorem dirtyGuard_bug :
    hashTree Ptoy wtOld = tRoot1 ∧
    (currentSnapshotHash stS1).1 = some tRoot1 ∧
    (checkout Ptoy wtOld stS1 tRoot1 false none).2 = CheckoutOutcome.dirtyErr ∧
    (checkout Ptoy wtOld stS1 tRoot1 true none).2 = CheckoutOutcome.dirtyErr ∧
    hashTree Ptoy wtNew ≠ tRoot1 ∧
    (checkout Ptoy wtNew stS1 tRoot1 false none).2 = CheckoutOutcome.attrErr := by
  exact ⟨by decide, by decide, by decide, by decide, by decide, by decide⟩

/-- Claim C8: REFUTED as a property of the code.  `checkout` can never
return successfully: every execution path that reaches the rebuild
step dies on an undefined name (`self.update_files` on the detached
path, `self.root` inside `_update_files` on the branch path), and the
remaining paths raise InvalidHash, DirtyDirectory or the
branch-validation ValueError, so the working tree is never rebuilt. -/
theorem checkoutRebuild_bug :
    (∀ (P : Prims) (wt : WTree) (st : RepoState) (q : Bytes) (force : Bool)
        (nb : Option Bytes),
        (checkout P wt st q force nb).2 ≠ CheckoutOutcome.ok) ∧
    (checkout Ptoy wtNew stS1 tRoot1 true none).2 = CheckoutOutcome.attrErr := by
  constructor
  · intro P wt st q force nb
    unfold checkout switchBranch
    split
    · simp
    · split
      · simp
      · split
        · simp
        · simp
        · split
          · split
            · simp
            · split <;> simp
          · simp
  · decide

/-! Helper lemmas for partial-hash resolution. -/

theorem map_self_of {f : Bytes → Bytes} :
    ∀ l : List Bytes, (∀ a ∈ l, f a = a) → l.map f = l := by
  intro l h
  induction l with
  | nil => rfl
  | cons x xs ih => simp_all

theorem filter_eq_single {l : List Bytes} {p : Bytes → Bool} {d : Bytes}
    (hnd : l.Nodup) (hd : d ∈ l) (hp : p d = true)
    (hu : ∀ c ∈ l, p c = true → c = d) : l.filter p = [d] := by
  induction l with
  | nil => cases hd
  | cons x xs ih =>
      rw [List.nodup_cons] at hnd
      rcases List.mem_cons.mp hd with hdx | hdx
      · subst hdx
        rw [List.filter_cons_of_pos hp]
        have hnil : xs.filter p = [] := by
          rw [List.filter_eq_nil_iff]
          intro a ha hpa
          exact hnd.1 (hu a (List.mem_cons_of_mem _ ha) hpa ▸ ha)
        rw [hnil]
      · have hpx : p x = false := by
          rcases hx : p x with _ | _
          · rfl
          · exact absurd (hu x (List.mem_cons_self x xs) hx ▸ hdx) hnd.1
        rw [List.filter_cons_of_neg (by simp [hpx])]
        exact ih hnd.2 hdx fun c hc hpc => hu c (List.mem_cons_of_mem _ hc) hpc

/-- Claim C5: partial-hash resolution.  Provided the catalog digests
are lowercase (true of every SHA-1 hexdigest the engine stores) and
pairwise distinct, `_full_hash` returns exactly the unique catalog
digest whose lowercase form starts with the lowercased prefix, and in
the zero-or-several case raises InvalidHashException carrying the
(lowercased) candidate list. -/
theorem fullHash_resolvesUnique (st : RepoState) (q : Bytes)
    (hlc : ∀ c ∈ st.catalog.map SnapRow.hash, pyLower c = c)
    (hnd : (st.catalog.map SnapRow.hash).Nodup) :
    (∀ d, fullHash st q = Except.ok d ↔
      (d ∈ st.catalog.map SnapRow.hash ∧
       startsB (pyLower d) (pyLower q) = true ∧
       ∀ c ∈ st.catalog.map SnapRow.hash,
         startsB (pyLower c) (pyLower q) = true → c = d)) ∧
    (∀ ms, fullHash st q = Except.error ms →
       ms = get_matches q (st.catalog.map SnapRow.hash) ∧ ms.length ≠ 1) := by
  have key : get_matches q (st.catalog.map SnapRow.hash) =
      (st.catalog.map SnapRow.hash).filter
        (fun x => startsB (pyLower x) (pyLower q)) := by
    unfold get_matches
    exact map_self_of _ fun a ha => hlc a (List.mem_filter.mp ha).1
  constructor
  · intro d
    constructor
    · intro h
      unfold fullHash at h
      rw [key] at h
      rcases hF : (st.catalog.map SnapRow.hash).filter
          (fun x => startsB (pyLower x) (pyLower q)) with _ | ⟨m, _ | ⟨m2, ms⟩⟩ <;>
        rw [hF] at h
      · cases h
      · have hmd : m = d := by cases h; rfl
        subst hmd
        have hm := List.mem_filter.mp (by rw [hF]; exact List.mem_singleton_self m)
        refine ⟨hm.1, hm.2, ?_⟩
        intro c hc hpc
        have : c ∈ [m] := by
          rw [← hF]
          exact List.mem_filter.mpr ⟨hc, hpc⟩
        simpa using this
      · cases h
    · rintro ⟨hmem, hpd, hu⟩
      have hF : (st.catalog.map SnapRow.hash).filter
          (fun x => startsB (pyLower x) (pyLower q)) = [d] :=
        filter_eq_single hnd hmem hpd hu
      unfold fullHash
      rw [key, hF]
  · intro ms h
    unfold fullHash at h
    rw [key] at h
    rcases hF : (st.catalog.map SnapRow.hash).filter
        (fun x => startsB (pyLower x) (pyLower q)) with _ | ⟨m, _ | ⟨m2, rest⟩⟩ <;>
      rw [hF] at h
    · cases h
      rw [key, hF]
      exact ⟨rfl, by simp⟩
    · cases h
    · cases h
      rw [key, hF]
      exact ⟨rfl, by simp⟩

theorem fullHash_resolvesUnique_witness :
    (∀ c ∈ stW.catalog.map SnapRow.hash, pyLower c = c) ∧
    (stW.catalog.map SnapRow.hash).Nodup ∧
    fullHash stW [97, 66, 99] = Except.ok [97, 98, 99] := by
  refine ⟨by decide, by decide, ?_⟩
  exact ((fullHash_resolvesUnique stW [97, 66, 99] (by decide) (by decide)).1
    [97, 98, 99]).mpr ⟨by decide, by decide, by decide⟩

/-! Helper lemmas about `pyRstrip`. -/

theorem pyRstrip_append_nil {l m : Bytes} (h : pyRstrip m = []) :
    pyRstrip (l ++ m) = pyRstrip l := by
  unfold pyRstrip at h ⊢
  have hm : m.reverse.dropWhile isPySpace = [] := by
    rwa [List.reverse_eq_nil_iff] at h
  rw [List.reverse_append, List.dropWhile_append, hm]
  simp

theorem pyRstrip_append_keep {l m : Bytes} (h : pyRstrip m ≠ []) :
    pyRstrip (l ++ m) = l ++ pyRstrip m := by
  unfold pyRstrip at h ⊢
  have hm : m.reverse.dropWhile isPySpace ≠ [] := by
    intro hh
    rw [hh] at h
    exact h rfl
  rw [List.reverse_append, List.dropWhile_append,
    if_neg (by simpa [List.isEmpty_iff] using hm),
    List.reverse_append, List.reverse_reverse]

theorem length_dropWhile_le (p : Nat → Bool) (l : Bytes) :
    (List.dropWhile p l).length ≤ l.length := by
  induction l with
  | nil => simp
  | cons x xs ih =>
      rw [List.dropWhile_cons]
      by_cases h : p x = true
      · rw [if_pos h]
        simp only [List.length_cons]
        omega
      · rw [if_neg h]

theorem pyRstrip_eq_self_iff {l : Bytes} :
    pyRstrip l = l ↔ ∀ c, l.getLast? = some c → isPySpace c = false := by
  have hiff : pyRstrip l = l ↔ l.reverse.dropWhile isPySpace = l.reverse := by
    constructor
    · intro h
      have := congrArg List.reverse h
      rwa [pyRstrip, List.reverse_reverse] at this
    · intro h
      rw [pyRstrip, h, List.reverse_reverse]
  rw [hiff]
  rcases hr : l.reverse with _ | ⟨c, cs⟩
  · have : l = [] := by rwa [← List.reverse_eq_nil_iff]
    subst this
    simp
  · have hlast : l.getLast? = some c := by
      rw [List.getLast?_eq_head?_reverse, hr]
      rfl
    rw [List.dropWhile_cons]
    rcases hc : isPySpace c with _ | _
    · rw [if_neg (by simp [hc])]
      constructor
      · intro _ d hd
        rw [hlast] at hd
        cases hd
        exact hc
      · intro _
        rfl
    · rw [if_pos rfl]
      constructor
      · intro h
        have hlen := congrArg List.length h
        rw [List.length_cons] at hlen
        have hle := length_dropWhile_le isPySpace cs
        omega
      · intro h
        exact absurd hc (by rw [h c hlast]; simp)

theorem pyRstrip_idem (l : Bytes) : pyRstrip (pyRstrip l) = pyRstrip l := by
  rw [pyRstrip_eq_self_iff]
  intro c hc
  unfold pyRstrip at hc
  rw [List.getLast?_reverse] at hc
  have hne : l.reverse.dropWhile isPySpace ≠ [] := by
    intro hh
    rw [hh] at hc
    cases hc
  have hhead := List.head_dropWhile_not isPySpace l.reverse hne
  rw [List.head?_eq_head hne] at hc
  cases hc
  exact hhead

theorem pyRstrip_of_no_ws {l : Bytes} (h : ∀ c ∈ l, isPySpace c = false) :
    pyRstrip l = l := by
  rw [pyRstrip_eq_self_iff]
  intro c hc
  refine h c ?_
  rw [List.getLast?_eq_head?_reverse] at hc
  exact List.mem_reverse.mp (List.mem_of_mem_head? (by rw [hc]; rfl))

/-- Claim C10: tree-line parse round trip.  Serializing an entry as
`'{kind} {digest} {name}'` (the format of `_create_tree_node`) and
parsing it with `_parse_tree_line` recovers the kind, the digest, and
the name with its trailing whitespace stripped; the name component
survives exactly when the name has no trailing whitespace. -/
theorem parseTreeLine_roundTrip (kind dg name : Bytes)
    (hk : kind = treeK ∨ kind = blobK)
    (hdl : dg.length = 40)
    (hdw : ∀ c ∈ dg, isPySpace c = false)
    (hnw : 10 ∉ name) :
    parseTreeLine (entryLine kind dg name) = (kind, dg, pyRstrip name) ∧
    (pyRstrip name = name ↔
      ∀ c, name.getLast? = some c → isPySpace c = false) := by
  refine ⟨?_, pyRstrip_eq_self_iff⟩
  have hkl : kind.length = 4 := by
    rcases hk with h | h <;> subst h <;> rfl
  have hks : pyRstrip (kind ++ [32]) = kind := by
    have h32 : pyRstrip [32] = [] := by decide
    rw [pyRstrip_append_nil h32]
    rcases hk with h | h <;> subst h <;> decide
  have hdg : pyRstrip dg = dg := pyRstrip_of_no_ws hdw
  have hdgs : pyRstrip (dg ++ [32]) = dg := by
    have h32 : pyRstrip [32] = [] := by decide
    rw [pyRstrip_append_nil h32, hdg]
  have hline : entryLine kind dg name = ((kind ++ [32]) ++ (dg ++ [32])) ++ name := by
    simp [entryLine]
  have hlen5 : (kind ++ [32]).length = 5 := by simp [hkl]
  have hlen41 : (dg ++ [32]).length = 41 := by simp [hdl]
  have hlen46 : ((kind ++ [32]) ++ (dg ++ [32])).length = 46 := by
    simp [hkl, hdl]
  by_cases hs : pyRstrip name = []
  · have hclean : pyRstrip (entryLine kind dg name) = (kind ++ [32]) ++ dg := by
      rw [hline, pyRstrip_append_nil hs]
      have : (kind ++ [32]) ++ (dg ++ [32]) = ((kind ++ [32]) ++ dg) ++ [32] := by
        simp
      rw [this, pyRstrip_append_nil (by decide)]
      rcases hne : dg with _ | ⟨a, as⟩
      · rw [hne] at hdl
        cases hdl
      · rw [← hne, pyRstrip_append_keep (by rw [hdg, hne]; simp)]
        rw [hdg]
    unfold parseTreeLine
    rw [hclean]
    have ht5 : ((kind ++ [32]) ++ dg).take 5 = kind ++ [32] :=
      List.take_left' hlen5
    have hd5 : ((kind ++ [32]) ++ dg).drop 5 = dg :=
      List.drop_left' hlen5
    have hd46 : ((kind ++ [32]) ++ dg).drop 46 = [] := by
      refine List.drop_eq_nil_of_le ?_
      simp [hkl, hdl]
    rw [ht5, hd5, hd46, hks, List.take_of_length_le (by omega), hdg, hs]
    rfl
  · have hclean : pyRstrip (entryLine kind dg name) =
        ((kind ++ [32]) ++ (dg ++ [32])) ++ pyRstrip name := by
      rw [hline, pyRstrip_append_keep hs]
    unfold parseTreeLine
    rw [hclean]
    have hassoc : ((kind ++ [32]) ++ (dg ++ [32])) ++ pyRstrip name =
        (kind ++ [32]) ++ ((dg ++ [32]) ++ pyRstrip name) := by
      simp
    have ht5 : (((kind ++ [32]) ++ (dg ++ [32])) ++ pyRstrip name).take 5 =
        kind ++ [32] := by
      rw [hassoc]
      exact List.take_left' hlen5
    have hd5 : (((kind ++ [32]) ++ (dg ++ [32])) ++ pyRstrip name).drop 5 =
        (dg ++ [32]) ++ pyRstrip name := by
      rw [hassoc]
      exact List.drop_left' hlen5
    have hd46 : (((kind ++ [32]) ++ (dg ++ [32])) ++ pyRstrip name).drop 46 =
        pyRstrip name := List.drop_left' hlen46
    rw [ht5, hd5, hd46, hks, List.take_left' hlen41, hdgs, pyRstrip_idem]

theorem parseTreeLine_roundTrip_witness :
    ((treeK : Bytes) = treeK ∨ (treeK : Bytes) = blobK) ∧
    (List.replicate 40 97 : Bytes).length = 40 ∧
    (∀ c ∈ (List.replicate 40 97 : Bytes), isPySpace c = false) ∧
    (10 : Nat) ∉ ([120, 32] : Bytes) ∧
    parseTreeLine (entryLine treeK (List.replicate 40 97) [120, 32]) =
      (treeK, List.replicate 40 97, [120]) := by
  refine ⟨Or.inl rfl, by decide, by decide, by decide, ?_⟩
  have h := (parseTreeLine_roundTrip treeK (List.replicate 40 97) [120, 32]
    (Or.inl rfl) (by decide) (by decide) (by decide)).1
  rw [h]
  decide

/-! Plumbing for the snapshot idempotence proof: what `_save_node` and
the tree walk touch, and what they leave alone. -/

theorem onlySC_refl (st : RepoState) : onlySC st st :=
  ⟨rfl, rfl, rfl, rfl⟩

theorem onlySC_trans {a b c : RepoState} (h1 : onlySC a b) (h2 : onlySC b c) :
    onlySC a c :=
  ⟨h2.1.trans h1.1, h2.2.1.trans h1.2.1, h2.2.2.1.trans h1.2.2.1,
   h2.2.2.2.trans h1.2.2.2⟩

theorem saveNode_onlySC (P : Prims) (fuel : Nat) (st : RepoState)
    (p : Path) (c : Bytes) : onlySC st (saveNode P fuel st p c).1 := by
  unfold saveNode
  split
  · exact onlySC_refl st
  · exact onlySC_refl st
  · exact ⟨rfl, rfl, rfl, rfl⟩

theorem saveNode_cache_frame (P : Prims) (fuel : Nat) (st : RepoState)
    (p : Path) (c : Bytes) (q : Path) (hq : q ≠ p) :
    lookupA (saveNode P fuel st p c).1.cache q = lookupA st.cache q := by
  unfold saveNode
  split
  · rfl
  · rfl
  · exact lookupA_insertA_ne _ hq

theorem saveNode_ok_digest {P : Prims} {fuel : Nat} {st st1 : RepoState}
    {p : Path} {c d : Bytes}
    (h : saveNode P fuel st p c = (st1, .ok d)) : d = P.hash c := by
  unfold saveNode at h
  split at h <;> cases h <;> rfl

theorem saveNode_ok_cache {P : Prims} {fuel : Nat} {st st1 : RepoState}
    {p : Path} {c d : Bytes}
    (h : saveNode P fuel st p c = (st1, .ok d)) :
    lookupA st1.cache p = some (P.hash c) := by
  unfold saveNode at h
  split at h
  · cases h
  case h_2 heq =>
      cases h
      unfold deltaCompress at heq
      split at heq
      · cases heq
      case h_2 refHash hl =>
          split at heq
          case isTrue hEq =>
            rw [hl, hEq]
          case isFalse =>
            split at heq <;> cases heq
  · cases h
    exact lookupA_insertA_self _ _ _

theorem saveNode_cached_noop (P : Prims) (fuel : Nat) (st : RepoState)
    (p : Path) (c : Bytes) (h : lookupA st.cache p = some (P.hash c)) :
    saveNode P fuel st p c = (st, .ok (P.hash c)) := by
  unfold saveNode deltaCompress
  rw [h]
  simp

theorem memB_iff {x : Bytes} : ∀ {l : List Bytes}, memB x l = true ↔ x ∈ l := by
  intro l
  induction l with
  | nil => simp [memB]
  | cons y ys ih =>
      by_cases h : y = x
      · subst h
        simp [memB]
      · have hxy : ¬ x = y := fun hh => h hh.symm
        simp [memB, h, ih, hxy]

theorem nodupNames_cons {x : Bytes} {xs : List Bytes} :
    nodupNames (x :: xs) = true ↔ memB x xs = false ∧ nodupNames xs = true := by
  rcases h : memB x xs with _ | _ <;> simp [nodupNames, h]

theorem nodupNames_append_left {xs ys : List Bytes}
    (h : nodupNames (xs ++ ys) = true) : nodupNames xs = true := by
  induction xs with
  | nil => rfl
  | cons z zs ih =>
      rw [List.cons_append, nodupNames_cons] at h
      rw [nodupNames_cons]
      refine ⟨?_, ih h.2⟩
      rcases hm : memB z zs with _ | _
      · rfl
      · have : z ∈ zs ++ ys := List.mem_append_left _ (memB_iff.mp hm)
        rw [(memB_iff.mpr this : memB z (zs ++ ys) = true)] at h
        exact absurd h.1 (by simp)

theorem nodupNames_append_right {xs ys : List Bytes}
    (h : nodupNames (xs ++ ys) = true) : nodupNames ys = true := by
  induction xs with
  | nil => exact h
  | cons z zs ih =>
      rw [List.cons_append, nodupNames_cons] at h
      exact ih h.2

theorem nodupNames_append_disj {xs ys : List Bytes} {x : Bytes}
    (h : nodupNames (xs ++ ys) = true) (h1 : x ∈ xs) (h2 : x ∈ ys) : False := by
  induction xs with
  | nil => cases h1
  | cons z zs ih =>
      rw [List.cons_append, nodupNames_cons] at h
      rcases List.mem_cons.mp h1 with hz | hz
      · subst hz
        have : x ∈ zs ++ ys := List.mem_append_right _ h2
        rw [(memB_iff.mpr this : memB x (zs ++ ys) = true)] at h
        exact absurd h.1 (by simp)
      · exact ih h.2 hz

theorem snapFiles_onlySC (P : Prims) (fuel : Nat) :
    ∀ (fs : List (Bytes × Bytes)) (dir : Path) (st : RepoState),
    onlySC st (snapFiles P fuel fs dir st).1 := by
  intro fs
  induction fs with
  | nil =>
      intro dir st
      exact onlySC_refl st
  | cons nb rest ih =>
      rcases nb with ⟨n, b⟩
      intro dir st
      rcases h1 : saveNode P fuel st (dir ++ [n]) b with ⟨st1, e⟩
      have hsc1 : onlySC st st1 := by
        have hh := saveNode_onlySC P fuel st (dir ++ [n]) b
        rwa [h1] at hh
      cases e with
      | error e =>
          simp only [snapFiles, h1]
          exact hsc1
      | ok d =>
          rcases h2 : snapFiles P fuel rest dir st1 with ⟨st2, e2⟩
          have hsc2 : onlySC st1 st2 := by
            have hh := ih dir st1
            rwa [h2] at hh
          cases e2 <;> simp only [snapFiles, h1, h2] <;>
            exact onlySC_trans hsc1 hsc2

theorem snapFiles_cache_frame (P : Prims) (fuel : Nat) :
    ∀ (fs : List (Bytes × Bytes)) (dir : Path) (st : RepoState) (q : Path),
    (∀ nb ∈ fs, q ≠ dir ++ [nb.1]) →
    lookupA (snapFiles P fuel fs dir st).1.cache q = lookupA st.cache q := by
  intro fs
  induction fs with
  | nil =>
      intro dir st q _
      rfl
  | cons nb rest ih =>
      rcases nb with ⟨n, b⟩
      intro dir st q hq
      rcases h1 : saveNode P fuel st (dir ++ [n]) b with ⟨st1, e⟩
      have hq1 : q ≠ dir ++ [n] := hq (n, b) (List.mem_cons_self _ _)
      have hf1 : lookupA st1.cache q = lookupA st.cache q := by
        have hh := saveNode_cache_frame P fuel st (dir ++ [n]) b q hq1
        rwa [h1] at hh
      cases e with
      | error e =>
          simp only [snapFiles, h1]
          exact hf1
      | ok d =>
          rcases h2 : snapFiles P fuel rest dir st1 with ⟨st2, e2⟩
          have hf2 : lookupA st2.cache q = lookupA st1.cache q := by
            have hh := ih dir st1 q fun nb hnb => hq nb (List.mem_cons_of_mem _ hnb)
            rwa [h2] at hh
          cases e2 <;> simp only [snapFiles, h1, h2] <;>
            exact hf2.trans hf1

theorem snapFiles_ok_ents (P : Prims) (fuel : Nat) :
    ∀ (fs : List (Bytes × Bytes)) (dir : Path) (st st1 : RepoState)
      (ents : List Bytes),
    snapFiles P fuel fs dir st = (st1, .ok ents) → ents = hashFiles P fs := by
  intro fs
  induction fs with
  | nil =>
      intro dir st st1 ents h
      simp only [snapFiles] at h
      cases h
      rfl
  | cons nb rest ih =>
      rcases nb with ⟨n, b⟩
      intro dir st st1 ents h
      rcases h1 : saveNode P fuel st (dir ++ [n]) b with ⟨st1a, e⟩
      cases e with
      | error e =>
          simp only [snapFiles, h1] at h
          cases h
      | ok d =>
          rcases h2 : snapFiles P fuel rest dir st1a with ⟨st2, e2⟩
          cases e2 with
          | error e2 =>
              simp only [snapFiles, h1, h2] at h
              cases h
          | ok ents2 =>
              simp only [snapFiles, h1, h2] at h
              have hd : d = P.hash b := saveNode_ok_digest h1
              rw [Prod.mk.injEq] at h
              rcases h with ⟨_, h⟩
              cases h
              rw [hd, ih dir st1a st2 ents2 h2]
              rfl

theorem snapFiles_cached (P : Prims) (fuel : Nat) :
    ∀ (fs : List (Bytes × Bytes)) (dir : Path) (st st1 : RepoState)
      (ents : List Bytes),
    nodupNames (fs.map Prod.fst) = true →
    snapFiles P fuel fs dir st = (st1, .ok ents) →
    cachedF P st1.cache fs dir = true := by
  intro fs
  induction fs with
  | nil =>
      intro dir st st1 ents _ _
      rfl
  | cons nb rest ih =>
      rcases nb with ⟨n, b⟩
      intro dir st st1 ents hnd h
      have hnd2 : memB n (rest.map Prod.fst) = false ∧
          nodupNames (rest.map Prod.fst) = true := by
        rw [List.map_cons] at hnd
        exact nodupNames_cons.mp hnd
      rcases h1 : saveNode P fuel st (dir ++ [n]) b with ⟨st1a, e⟩
      cases e with
      | error e =>
          simp only [snapFiles, h1] at h
          cases h
      | ok d =>
          rcases h2 : snapFiles P fuel rest dir st1a with ⟨st2, e2⟩
          cases e2 with
          | error e2 =>
              simp only [snapFiles, h1, h2] at h
              cases h
          | ok ents2 =>
              simp only [snapFiles, h1, h2] at h
              rw [Prod.mk.injEq] at h
              rcases h with ⟨hst, _⟩
              rw [← hst]
              have hc1 : lookupA st1a.cache (dir ++ [n]) = some (P.hash b) :=
                saveNode_ok_cache h1
              have hsurv : lookupA st2.cache (dir ++ [n]) =
                  lookupA st1a.cache (dir ++ [n]) := by
                have hh := snapFiles_cache_frame P fuel rest dir st1a (dir ++ [n])
                  (fun nb hnb hq => by
                    have hn : n = nb.1 :=
                      (List.cons_eq_cons.mp (List.append_cancel_left hq)).1
                    have hmem : memB n (rest.map Prod.fst) = true :=
                      memB_iff.mpr (hn ▸ List.mem_map_of_mem Prod.fst hnb)
                    cases hmem.symm.trans hnd2.1)
                rwa [h2] at hh
              have hrest : cachedF P st2.cache rest dir = true :=
                ih dir st1a st2 ents2 hnd2.2 h2
              unfold cachedF
              rw [hsurv, hc1, hrest]
              simp

theorem snapFiles_of_cachedF (P : Prims) (fuel : Nat) :
    ∀ (fs : List (Bytes × Bytes)) (dir : Path) (st : RepoState),
    cachedF P st.cache fs dir = true →
    snapFiles P fuel fs dir st = (st, .ok (hashFiles P fs)) := by
  intro fs
  induction fs with
  | nil =>
      intro dir st _
      rfl
  | cons nb rest ih =>
      rcases nb with ⟨n, b⟩
      intro dir st hc
      unfold cachedF at hc
      rw [Bool.and_eq_true] at hc
      have hl : lookupA st.cache (dir ++ [n]) = some (P.hash b) :=
        of_decide_eq_true hc.1
      have h1 := saveNode_cached_noop P fuel st (dir ++ [n]) b hl
      have h2 := ih dir st hc.2
      simp only [snapFiles, h1, h2]
      rfl

theorem append_cons_ne {dir : Path} {n : Bytes} {r : Path} :
    dir ++ n :: r ≠ dir := by
  intro h
  have hlen := congrArg List.length h
  simp at hlen

mutual
theorem snapTree_onlySC (P : Prims) (fuel : Nat) (t : WTree) (dir : Path)
    (st : RepoState) : onlySC st (snapTree P fuel t dir st).1 := by
  cases t with
  | node dirs files =>
      rcases h1 : snapDirs P fuel dirs dir st with ⟨st1, e1⟩
      have hs1 : onlySC st st1 := by
        have hh := snapDirs_onlySC P fuel dirs dir st
        rwa [h1] at hh
      cases e1 with
      | error e =>
          simp only [snapTree, h1]
          exact hs1
      | ok entsD =>
          rcases h2 : snapFiles P fuel files dir st1 with ⟨st2, e2⟩
          have hs2 : onlySC st1 st2 := by
            have hh := snapFiles_onlySC P fuel files dir st1
            rwa [h2] at hh
          cases e2 with
          | error e =>
              simp only [snapTree, h1, h2]
              exact onlySC_trans hs1 hs2
          | ok entsF =>
              simp only [snapTree, h1, h2]
              exact onlySC_trans (onlySC_trans hs1 hs2)
                (saveNode_onlySC P fuel st2 dir (nodeContent (entsD ++ entsF)))

theorem snapDirs_onlySC (P : Prims) (fuel : Nat) (F : WForest) (dir : Path)
    (st : RepoState) : onlySC st (snapDirs P fuel F dir st).1 := by
  cases F with
  | nil => exact onlySC_refl st
  | cons n t rest =>
      by_cases hn : n = pbbName
      · simp only [snapDirs, if_pos hn]
        exact snapDirs_onlySC P fuel rest dir st
      · rcases h1 : snapTree P fuel t (dir ++ [n]) st with ⟨st1, e1⟩
        have hs1 : onlySC st st1 := by
          have hh := snapTree_onlySC P fuel t (dir ++ [n]) st
          rwa [h1] at hh
        cases e1 with
        | error e =>
            simp only [snapDirs, if_neg hn, h1]
            exact hs1
        | ok dg =>
            rcases h2 : snapDirs P fuel rest dir st1 with ⟨st2, e2⟩
            have hs2 : onlySC st1 st2 := by
              have hh := snapDirs_onlySC P fuel rest dir st1
              rwa [h2] at hh
            cases e2 with
            | error e =>
                simp only [snapDirs, if_neg hn, h1, h2]
                exact onlySC_trans hs1 hs2
            | ok ents =>
                simp only [snapDirs, if_neg hn, h1, h2]
                exact onlySC_trans hs1 hs2
end

mutual
theorem snapTree_cache_frame (P : Prims) (fuel : Nat) (t : WTree) (dir : Path)
    (st : RepoState) (q : Path) (hq : ¬ under dir q) :
    lookupA (snapTree P fuel t dir st).1.cache q = lookupA st.cache q := by
  cases t with
  | node dirs files =>
      rcases h1 : snapDirs P fuel dirs dir st with ⟨st1, e1⟩
      have hf1 : lookupA st1.cache q = lookupA st.cache q := by
        have hh := snapDirs_cache_frame P fuel dirs dir st q
          (fun hex => by
            obtain ⟨n, r, _, hqe⟩ := hex
            exact hq ⟨n :: r, hqe⟩)
        rwa [h1] at hh
      cases e1 with
      | error e =>
          simp only [snapTree, h1]
          exact hf1
      | ok entsD =>
          rcases h2 : snapFiles P fuel files dir st1 with ⟨st2, e2⟩
          have hf2 : lookupA st2.cache q = lookupA st1.cache q := by
            have hh := snapFiles_cache_frame P fuel files dir st1 q
              (fun nb _ hqe => hq ⟨[nb.1], hqe⟩)
            rwa [h2] at hh
          cases e2 with
          | error e =>
              simp only [snapTree, h1, h2]
              exact hf2.trans hf1
          | ok entsF =>
              simp only [snapTree, h1, h2]
              have hf3 := saveNode_cache_frame P fuel st2 dir
                (nodeContent (entsD ++ entsF)) q
                (fun hqe => hq ⟨[], by rw [hqe, List.append_nil]⟩)
              exact (hf3.trans hf2).trans hf1

theorem snapDirs_cache_frame (P : Prims) (fuel : Nat) (F : WForest) (dir : Path)
    (st : RepoState) (q : Path)
    (hq : ¬ ∃ n r, memB n (forestNames F) = true ∧ q = dir ++ n :: r) :
    lookupA (snapDirs P fuel F dir st).1.cache q = lookupA st.cache q := by
  cases F with
  | nil => rfl
  | cons n t rest =>
      have hqrest : ¬ ∃ n' r, memB n' (forestNames rest) = true ∧
          q = dir ++ n' :: r := by
        intro hex
        obtain ⟨n', r, hmem, hqe⟩ := hex
        refine hq ⟨n', r, ?_, hqe⟩
        exact memB_iff.mpr (List.mem_cons_of_mem _ (memB_iff.mp hmem))
      by_cases hn : n = pbbName
      · simp only [snapDirs, if_pos hn]
        exact snapDirs_cache_frame P fuel rest dir st q hqrest
      · rcases h1 : snapTree P fuel t (dir ++ [n]) st with ⟨st1, e1⟩
        have hf1 : lookupA st1.cache q = lookupA st.cache q := by
          have hh := snapTree_cache_frame P fuel t (dir ++ [n]) st q
            (fun hu => by
              obtain ⟨r, hr⟩ := hu
              refine hq ⟨n, r, memB_iff.mpr (List.mem_cons_self _ _), ?_⟩
              rw [hr]
              simp)
          rwa [h1] at hh
        cases e1 with
        | error e =>
            simp only [snapDirs, if_neg hn, h1]
            exact hf1
        | ok dg =>
            rcases h2 : snapDirs P fuel rest dir st1 with ⟨st2, e2⟩
            have hf2 : lookupA st2.cache q = lookupA st1.cache q := by
              have hh := snapDirs_cache_frame P fuel rest dir st1 q hqrest
              rwa [h2] at hh
            cases e2 with
            | error e =>
                simp only [snapDirs, if_neg hn, h1, h2]
                exact hf2.trans hf1
            | ok ents =>
                simp only [snapDirs, if_neg hn, h1, h2]
                exact hf2.trans hf1
end

mutual
theorem snapTree_digest (P : Prims) (fuel : Nat) (t : WTree) (dir : Path)
    (st st1 : RepoState) (d : Bytes)
    (hh : snapTree P fuel t dir st = (st1, .ok d)) : d = hashTree P t := by
  cases t with
  | node dirs files =>
      rcases h1 : snapDirs P fuel dirs dir st with ⟨stD, e1⟩
      cases e1 with
      | error e =>
          simp only [snapTree, h1] at hh
          cases hh
      | ok entsD =>
          rcases h2 : snapFiles P fuel files dir stD with ⟨stF, e2⟩
          cases e2 with
          | error e =>
              simp only [snapTree, h1, h2] at hh
              cases hh
          | ok entsF =>
              simp only [snapTree, h1, h2] at hh
              have hd := saveNode_ok_digest hh
              rw [hd, snapDirs_ents P fuel dirs dir st stD entsD h1,
                snapFiles_ok_ents P fuel files dir stD stF entsF h2]
              rfl

theorem snapDirs_ents (P : Prims) (fuel : Nat) (F : WForest) (dir : Path)
    (st st1 : RepoState) (ents : List Bytes)
    (hh : snapDirs P fuel F dir st = (st1, .ok ents)) : ents = hashDirs P F := by
  cases F with
  | nil =>
      simp only [snapDirs] at hh
      cases hh
      rfl
  | cons n t rest =>
      by_cases hn : n = pbbName
      · simp only [snapDirs, if_pos hn] at hh
        rw [snapDirs_ents P fuel rest dir st st1 ents hh]
        simp [hashDirs, hn]
      · rcases h1 : snapTree P fuel t (dir ++ [n]) st with ⟨stc, e1⟩
        cases e1 with
        | error e =>
            simp only [snapDirs, if_neg hn, h1] at hh
            cases hh
        | ok dg =>
            rcases h2 : snapDirs P fuel rest dir stc with ⟨st2, e2⟩
            cases e2 with
            | error e =>
                simp only [snapDirs, if_neg hn, h1, h2] at hh
                cases hh
            | ok ents2 =>
                simp only [snapDirs, if_neg hn, h1, h2] at hh
                rw [Prod.mk.injEq] at hh
                rcases hh with ⟨_, hh⟩
                cases hh
                rw [snapTree_digest P fuel t (dir ++ [n]) st stc dg h1,
                  snapDirs_ents P fuel rest dir stc st2 ents2 h2]
                simp [hashDirs, hn]
end

theorem cachedF_mono (P : Prims) (c d : List (Path × Bytes)) :
    ∀ (fs : List (Bytes × Bytes)) (dir : Path),
    cachedF P c fs dir = true →
    (∀ n b, (n, b) ∈ fs → lookupA d (dir ++ [n]) = lookupA c (dir ++ [n])) →
    cachedF P d fs dir = true := by
  intro fs
  induction fs with
  | nil =>
      intro dir _ _
      rfl
  | cons nb rest ih =>
      rcases nb with ⟨n, b⟩
      intro dir hc hag
      unfold cachedF at hc ⊢
      rw [Bool.and_eq_true] at hc
      rw [hag n b (List.mem_cons_self _ _), hc.1,
        ih dir hc.2 fun n' b' h' => hag n' b' (List.mem_cons_of_mem _ h')]
      rfl

mutual
theorem cachedT_mono (P : Prims) (c d : List (Path × Bytes)) (t : WTree)
    (dir : Path) (hc : cachedT P c t dir = true)
    (hag : ∀ q, under dir q → lookupA d q = lookupA c q) :
    cachedT P d t dir = true := by
  cases t with
  | node dirs files =>
      unfold cachedT at hc ⊢
      rw [Bool.and_eq_true, Bool.and_eq_true] at hc
      obtain ⟨⟨hD, hF⟩, hE⟩ := hc
      have hD2 : cachedD P d dirs dir = true :=
        cachedD_mono P c d dirs dir hD fun q hex => by
          obtain ⟨n, r, _, hqe⟩ := hex
          exact hag q ⟨n :: r, hqe⟩
      have hF2 : cachedF P d files dir = true :=
        cachedF_mono P c d files dir hF fun n b _ =>
          hag (dir ++ [n]) ⟨[n], rfl⟩
      have hE2 : lookupA d dir = lookupA c dir :=
        hag dir ⟨[], (List.append_nil dir).symm⟩
      rw [hD2, hF2, hE2, hE]
      rfl

theorem cachedD_mono (P : Prims) (c d : List (Path × Bytes)) (F : WForest)
    (dir : Path) (hc : cachedD P c F dir = true)
    (hag : ∀ q, (∃ n r, memB n (forestNames F) = true ∧ q = dir ++ n :: r) →
      lookupA d q = lookupA c q) :
    cachedD P d F dir = true := by
  cases F with
  | nil => rfl
  | cons n t rest =>
      unfold cachedD at hc ⊢
      rw [Bool.and_eq_true] at hc
      obtain ⟨h1, h2⟩ := hc
      have h2d : cachedD P d rest dir = true :=
        cachedD_mono P c d rest dir h2 fun q hex => by
          obtain ⟨n', r, hmem, hqe⟩ := hex
          exact hag q ⟨n', r,
            memB_iff.mpr (List.mem_cons_of_mem _ (memB_iff.mp hmem)), hqe⟩
      have h1d : (if n = pbbName then true
          else cachedT P d t (dir ++ [n])) = true := by
        by_cases hn : n = pbbName
        · rw [if_pos hn]
        · rw [if_neg hn] at h1 ⊢
          refine cachedT_mono P c d t (dir ++ [n]) h1 fun q hu => ?_
          obtain ⟨r, hr⟩ := hu
          refine hag q ⟨n, r, memB_iff.mpr (List.mem_cons_self _ _), ?_⟩
          rw [hr]
          simp
      rw [h1d, h2d]
      rfl
end

mutual
/-- After a successful tree walk from a well-formed working tree, the
in-memory cache maps every walked path to the digest just stored for
it (later siblings cannot clobber an entry because sibling names are
distinct and each walk only writes keys below its own directory). -/
theorem snapTree_cached (P : Prims) (fuel : Nat) (t : WTree) (dir : Path)
    (st st1 : RepoState) (d : Bytes) (hwf : wfT t = true)
    (hh : snapTree P fuel t dir st = (st1, .ok d)) :
    cachedT P st1.cache t dir = true := by
  cases t with
  | node dirs files =>
      unfold wfT at hwf
      rw [Bool.and_eq_true] at hwf
      obtain ⟨hND, hwfD⟩ := hwf
      rcases h1 : snapDirs P fuel dirs dir st with ⟨stD, e1⟩
      cases e1 with
      | error e =>
          simp only [snapTree, h1] at hh
          cases hh
      | ok entsD =>
          rcases h2 : snapFiles P fuel files dir stD with ⟨stF, e2⟩
          cases e2 with
          | error e =>
              simp only [snapTree, h1, h2] at hh
              cases hh
          | ok entsF =>
              simp only [snapTree, h1, h2] at hh
              have cD : cachedD P stD.cache dirs dir = true :=
                snapDirs_cached P fuel dirs dir st stD entsD hwfD
                  (nodupNames_append_left hND) h1
              have cDF : cachedD P stF.cache dirs dir = true := by
                refine cachedD_mono P stD.cache stF.cache dirs dir cD
                  fun q hex => ?_
                obtain ⟨n, r, hmem, hqe⟩ := hex
                have hh2 := snapFiles_cache_frame P fuel files dir stD q
                  (fun nb hnb hqe2 => by
                    rw [hqe] at hqe2
                    have := List.cons_eq_cons.mp (List.append_cancel_left hqe2)
                    exact nodupNames_append_disj hND (memB_iff.mp hmem)
                      (this.1 ▸ List.mem_map_of_mem Prod.fst hnb))
                rwa [h2] at hh2
              have cF : cachedF P stF.cache files dir = true :=
                snapFiles_cached P fuel files dir stD stF entsF
                  (nodupNames_append_right hND) h2
              have hfr : ∀ q, q ≠ dir →
                  lookupA st1.cache q = lookupA stF.cache q := by
                intro q hqd
                have hh3 := saveNode_cache_frame P fuel stF dir
                  (nodeContent (entsD ++ entsF)) q hqd
                rwa [hh] at hh3
              have cD1 : cachedD P st1.cache dirs dir = true := by
                refine cachedD_mono P stF.cache st1.cache dirs dir cDF
                  fun q hex => ?_
                obtain ⟨n, r, _, hqe⟩ := hex
                exact hfr q (hqe ▸ append_cons_ne)
              have cF1 : cachedF P st1.cache files dir = true := by
                refine cachedF_mono P stF.cache st1.cache files dir cF
                  fun n b _ => hfr (dir ++ [n]) append_cons_ne
              have hE : lookupA st1.cache dir =
                  some (P.hash (nodeContent (entsD ++ entsF))) :=
                saveNode_ok_cache hh
              unfold cachedT
              rw [cD1, cF1]
              rw [snapDirs_ents P fuel dirs dir st stD entsD h1,
                snapFiles_ok_ents P fuel files dir stD stF entsF h2] at hE
              have : hashTree P (.node dirs files) =
                  P.hash (nodeContent (hashDirs P dirs ++ hashFiles P files)) :=
                rfl
              rw [this, hE]
              simp

/-- Forest version of `snapTree_cached`: needs distinct sibling names
so that an established child entry survives the later siblings. -/
theorem snapDirs_cached (P : Prims) (fuel : Nat) (F : WForest) (dir : Path)
    (st st1 : RepoState) (ents : List Bytes) (hwf : wfD F = true)
    (hnd : nodupNames (forestNames F) = true)
    (hh : snapDirs P fuel F dir st = (st1, .ok ents)) :
    cachedD P st1.cache F dir = true := by
  cases F with
  | nil => rfl
  | cons n t rest =>
      unfold wfD at hwf
      rw [Bool.and_eq_true] at hwf
      have hnd2 : memB n (forestNames rest) = false ∧
          nodupNames (forestNames rest) = true := by
        exact nodupNames_cons.mp hnd
      by_cases hn : n = pbbName
      · simp only [snapDirs, if_pos hn] at hh
        unfold cachedD
        rw [if_pos hn,
          snapDirs_cached P fuel rest dir st st1 ents hwf.2 hnd2.2 hh]
        rfl
      · rcases h1 : snapTree P fuel t (dir ++ [n]) st with ⟨stc, e1⟩
        cases e1 with
        | error e =>
            simp only [snapDirs, if_neg hn, h1] at hh
            cases hh
        | ok dg =>
            rcases h2 : snapDirs P fuel rest dir stc with ⟨st2, e2⟩
            cases e2 with
            | error e =>
                simp only [snapDirs, if_neg hn, h1, h2] at hh
                cases hh
            | ok ents2 =>
                simp only [snapDirs, if_neg hn, h1, h2] at hh
                rw [Prod.mk.injEq] at hh
                rcases hh with ⟨hst, _⟩
                have cT : cachedT P stc.cache t (dir ++ [n]) = true :=
                  snapTree_cached P fuel t (dir ++ [n]) st stc dg hwf.1 h1
                have cT1 : cachedT P st1.cache t (dir ++ [n]) = true := by
                  rw [← hst]
                  refine cachedT_mono P stc.cache st2.cache t (dir ++ [n]) cT
                    fun q hu => ?_
                  obtain ⟨r, hr⟩ := hu
                  have hh2 := snapDirs_cache_frame P fuel rest dir stc q
                    (fun hex => by
                      obtain ⟨n', r', hmem, hqe⟩ := hex
                      rw [hr] at hqe
                      rw [List.append_assoc] at hqe
                      have := List.cons_eq_cons.mp
                        (List.append_cancel_left hqe.symm)
                      have hmem2 : memB n (forestNames rest) = true :=
                        this.1 ▸ hmem
                      cases hmem2.symm.trans hnd2.1)
                  rwa [h2] at hh2
                have cR : cachedD P st1.cache rest dir = true := by
                  rw [← hst]
                  exact snapDirs_cached P fuel rest dir stc st2 ents2
                    hwf.2 hnd2.2 h2
                unfold cachedD
                rw [if_neg hn, cT1, cR]
                rfl
end

mutual
/-- When every path of the tree is already cached with its current
digest, the tree walk is a pure no-op: it writes nothing, changes no
state, and returns the tree digest (the second snapshot of an
unchanged tree). -/
theorem snapTree_of_cached (P : Prims) (fuel : Nat) (t : WTree) (dir : Path)
    (st : RepoState) (hc : cachedT P st.cache t dir = true) :
    snapTree P fuel t dir st = (st, .ok (hashTree P t)) := by
  cases t with
  | node dirs files =>
      unfold cachedT at hc
      rw [Bool.and_eq_true, Bool.and_eq_true] at hc
      obtain ⟨⟨hD, hF⟩, hE⟩ := hc
      have h1 := snapDirs_of_cached P fuel dirs dir st hD
      have h2 := snapFiles_of_cachedF P fuel files dir st hF
      have hE2 : lookupA st.cache dir =
          some (P.hash (nodeContent (hashDirs P dirs ++ hashFiles P files))) :=
        of_decide_eq_true hE
      have h3 := saveNode_cached_noop P fuel st dir
        (nodeContent (hashDirs P dirs ++ hashFiles P files)) hE2
      simp only [snapTree, h1, h2, h3]
      rfl

/-- Forest version of `snapTree_of_cached`. -/
theorem snapDirs_of_cached (P : Prims) (fuel : Nat) (F : WForest) (dir : Path)
    (st : RepoState) (hc : cachedD P st.cache F dir = true) :
    snapDirs P fuel F dir st = (st, .ok (hashDirs P F)) := by
  cases F with
  | nil => rfl
  | cons n t rest =>
      unfold cachedD at hc
      rw [Bool.and_eq_true] at hc
      obtain ⟨h1, h2⟩ := hc
      have hrest := snapDirs_of_cached P fuel rest dir st h2
      by_cases hn : n = pbbName
      · simp only [snapDirs, if_pos hn, hrest]
        simp [hashDirs, hn]
      · rw [if_neg hn] at h1
        have hchild := snapTree_of_cached P fuel t (dir ++ [n]) st h1
        simp only [snapDirs, if_neg hn, hchild, hrest]
        simp [hashDirs, hn]
end

/-- Claim C6: snapshot idempotence.  If a snapshot succeeds on a
well-formed working tree (distinct sibling names, as on any real
filesystem), it appends exactly one catalog row, and running snapshot
again with the tree unchanged returns the no-changes result while
leaving the entire repository state untouched: no object is written or
modified, the cache (memory and disk), branch refs and catalog are
exactly those left by the first call. -/
theorem snapshotIdem (P : Prims) (fuel : Nat) (wt : WTree) (st : RepoState)
    (l m u l2 m2 u2 : Bytes) (d : Bytes)
    (hwf : wfT wt = true)
    (hok : (snapshotOp P fuel wt st l m u).2 = .ok d) :
    ((snapshotOp P fuel wt st l m u).1).catalog =
      st.catalog ++ [{ hash := d, branch := st.headFile, label := l,
                       message := m, user := u }] ∧
    snapshotOp P fuel wt ((snapshotOp P fuel wt st l m u).1) l2 m2 u2 =
      ((snapshotOp P fuel wt st l m u).1, .noChanges) := by
  rcases h1 : snapTree P fuel wt [] st with ⟨stT, e1⟩
  cases e1 with
  | error e =>
      rw [snapshotOp, h1] at hok
      exact absurd hok (by simp)
  | ok topHash =>
      rcases h2 : currentSnapshotHash stT with ⟨old, det⟩
      have hok2 := hok
      simp only [snapshotOp, h1, h2] at hok2
      by_cases hEq : old = some topHash
      · rw [if_pos hEq] at hok2
        exact absurd hok2 (by simp)
      · rw [if_neg hEq] at hok2
        rcases det with _ | _
        · have hrun1 : snapshotOp P fuel wt st l m u =
              (insertSnapshot (updateBranchHead
                  { stT with cacheDisk := stT.cache } topHash
                  (currentBranch { stT with cacheDisk := stT.cache }))
                topHash l m u, .ok topHash) := by
            simp only [snapshotOp, h1, h2]
            rw [if_neg hEq]
            simp
          have hd : d = topHash := by
            rw [hrun1] at hok
            simpa using hok.symm
          subst hd
          have hOSC : onlySC st stT := by
            have hh := snapTree_onlySC P fuel wt [] st
            rwa [h1] at hh
          constructor
          · rw [hrun1]
            show (insertSnapshot _ d l m u).catalog = _
            unfold insertSnapshot updateBranchHead currentBranch
            simp only []
            rw [show ({ stT with cacheDisk := stT.cache } : RepoState).catalog =
                stT.catalog from rfl]
            rw [hOSC.2.2.2, hOSC.2.1]
          · have hcached : cachedT P stT.cache wt [] = true :=
              snapTree_cached P fuel wt [] st stT d hwf h1
            have htop : d = hashTree P wt :=
              snapTree_digest P fuel wt [] st stT d h1
            rw [hrun1]
            have hsnap2 : snapTree P fuel wt []
                (insertSnapshot (updateBranchHead
                  { stT with cacheDisk := stT.cache } d
                  (currentBranch { stT with cacheDisk := stT.cache }))
                  d l m u) =
                (insertSnapshot (updateBranchHead
                  { stT with cacheDisk := stT.cache } d
                  (currentBranch { stT with cacheDisk := stT.cache }))
                  d l m u, .ok (hashTree P wt)) :=
              snapTree_of_cached P fuel wt [] _ hcached
            have hmem : memB stT.headFile
                ((insertA stT.branches stT.headFile d).map Prod.fst) = true :=
              memB_map_fst_insertA stT.branches stT.headFile d
            have hlook : lookupA (insertA stT.branches stT.headFile d)
                stT.headFile = some d :=
              lookupA_insertA_self stT.branches stT.headFile d
            have hcsh : currentSnapshotHash
                (insertSnapshot (updateBranchHead
                  { stT with cacheDisk := stT.cache } d
                  (currentBranch { stT with cacheDisk := stT.cache }))
                  d l m u) = (some d, false) := by
              unfold currentSnapshotHash currentBranch listBranchNames
                insertSnapshot updateBranchHead
              simp only []
              rw [hmem]
              rw [if_pos rfl]
              rw [hlook]
            simp only [snapshotOp, hsnap2, hcsh]
            rw [if_pos (by rw [htop])]
        · rw [if_pos rfl] at hok2
          exact absurd hok2 (by simp)

theorem snapshotIdem_witness :
    wfT wtOld = true ∧
    (snapshotOp Ptoy 9 wtOld stM [] [] []).2 = SnapOutcome.ok tRoot1 ∧
    ((snapshotOp Ptoy 9 wtOld stM [] [] []).1).catalog =
      stM.catalog ++ [{ hash := tRoot1, branch := stM.headFile, label := [],
                        message := [], user := [] }] ∧
    snapshotOp Ptoy 9 wtOld ((snapshotOp Ptoy 9 wtOld stM [] [] []).1)
        [] [] [] =
      ((snapshotOp Ptoy 9 wtOld stM [] [] []).1, SnapOutcome.noChanges) := by
  refine ⟨by decide, by decide, ?_, ?_⟩
  · exact (snapshotIdem Ptoy 9 wtOld stM [] [] [] [] [] [] tRoot1
      (by decide) (by decide)).1
  · exact (snapshotIdem Ptoy 9 wtOld stM [] [] [] [] [] [] tRoot1
      (by decide) (by decide)).2

end PBB
